import Mathlib

/-!
Verification of the command-line-to-settings-patch translator
(`updateFromCommandLine` / `getUpdatableNode`) of the settings subsystem.

The repository ships the Jest test suite of that engine; the engine itself
(`settings.ts`) is not among the provided sources, so the definitions below
are modelled from the specification (sections 4.1 to 4.3: Path Resolver,
Value Coercer, Command-Line Patch Engine), constrained to agree with the
repository's test suite wherever the two disagree.

Two embeddings are developed:
* a pure, value-level embedding (`SettingsValue`, `updateFromCommandLine`)
  for functional claims, and
* a small heap embedding (`Heap`, `updateFromCommandLineH`) whose objects are
  addressed mutable records, used for the claims about aliasing and about
  the engine never mutating the caller's document.

Numbers are modelled as integers: every numeric leaf of the settings
documents in scope is integral, and the JSON-literal parser is modelled on
integer literals only.
-/

set_option maxHeartbeats 1000000

/-- A settings document: a tree of mappings whose leaves are strings,
numbers or booleans (spec section 3, Data Model). Field order is the JSON
object order. -/
inductive SettingsValue where
| str : String → SettingsValue
| num : Int → SettingsValue
| bool : Bool → SettingsValue
| node : List (String × SettingsValue) → SettingsValue

abbrev Fields := List (String × SettingsValue)

/-- First-match field lookup in a mapping, as JavaScript property access. -/
def lookupField : Fields → String → Option SettingsValue
| [], _ => none
| p :: rest, key => if p.1 = key then some p.2 else lookupField rest key

/-- Point update of one field of a mapping (JavaScript `obj[key] = v`);
keys that are absent are not created (the engine only overwrites existing
leaves, spec section 4.3). -/
def setFields (fs : Fields) (key : String) (v : SettingsValue) : Fields :=
  fs.map (fun p => if p.1 = key then (p.1, v) else p)

/-- Splitting a path token into dash-separated segments. -/
def splitDashAux : List Char → List Char → List (List Char)
| [], acc => [acc.reverse]
| c :: cs, acc => if c = '-' then acc.reverse :: splitDashAux cs [] else splitDashAux cs (c :: acc)

def splitDash (s : String) : List String :=
  (splitDashAux s.data []).map (fun cs => String.mk cs)

/-- Joining consumed path segments back with the separator, to test
candidate field names (spec section 4.1). -/
def joinDash : List String → String
| [] => ""
| [s] => s
| s :: rest => s ++ "-" ++ joinDash rest

/-- Modelled from the spec: the greedy descent step of the Path Resolver
(spec section 4.1).  At the current node it tries, longest first, every
proper prefix of the remaining segments; a prefix whose dash-join names a
field holding a structural (nested-mapping) value is consumed and the walk
descends into that value.  Returns the number of consumed segments and the
fields of the child node. -/
def tryKeyRuns (fields : Fields) (segs : List String) : Nat → Option (Nat × Fields)
| 0 => none
| Nat.succ k =>
  match lookupField fields (joinDash (List.take (Nat.succ k) segs)) with
  | some (SettingsValue.node f) => some (Nat.succ k, f)
  | _ => tryKeyRuns fields segs k

/-- Modelled from the spec: the Path Resolver walk (spec section 4.1).
Starting from the fields of the current node it consumes the longest
structural run of segments (`tryKeyRuns`), recursing into the child; when no
structural run matches, the dash-join of the whole remaining suffix must
name a field of the current node, which is the resolved final key.
Returns the chain of consumed composite keys, the fields of the node holding
the final key, and the final key.

The spec's bullet "the path resolves to a structural node itself rather
than a leaf → NotFound" contradicts the repository's test suite
(`getUpdatableNode(prefs, 'kubernetes')` returns `[prefs, 'kubernetes']`)
and the engine's own "Can't overwrite existing setting" error, which needs
the resolver to surface structural targets; following the tests, an
existing final key is returned whether its value is a leaf or a node.

The walk is bounded by a fuel parameter that the `resolveSegs` wrapper
instantiates with the segment count; every descent consumes at least one
segment, so that bound is never hit. -/
def resolveSegsAux : Nat → Fields → List String → Option (List String × Fields × String)
| 0, _, _ => none
| Nat.succ fuel, fields, segs =>
  match tryKeyRuns fields segs (segs.length - 1) with
  | some (m, f) =>
      (resolveSegsAux fuel f (List.drop m segs)).map
        (fun r => (joinDash (List.take m segs) :: r.1, r.2))
  | none =>
      match lookupField fields (joinDash segs) with
      | some _ => some ([], fields, joinDash segs)
      | none => none

def resolveSegs (fields : Fields) (segs : List String) :
    Option (List String × Fields × String) :=
  resolveSegsAux segs.length fields segs

/-- Modelled from the spec: resolver entry point on a whole document. -/
def resolveLocFull (doc : SettingsValue) (path : String) :
    Option (List String × Fields × String) :=
  match doc with
  | SettingsValue.node fs => resolveSegs fs (splitDash path)
  | _ => none

/-- Modelled from the spec: `getUpdatableNode(cfg, fqFieldAccessor)` — the
pair (parent mapping, final key), or `null` (spec section 4.1 contract). -/
def getUpdatableNode (doc : SettingsValue) (path : String) : Option (Fields × String) :=
  (resolveLocFull doc path).map (fun r => r.2)

/-- Fields of the node reached by following a chain of composite keys. -/
def nodeFieldsAt : SettingsValue → List String → Option Fields
| SettingsValue.node fs, [] => some fs
| SettingsValue.node fs, c :: ch =>
  match lookupField fs c with
  | some v => nodeFieldsAt v ch
  | none => none
| _, _ => none

/-- The leaf value addressed by a chain of composite keys plus final key. -/
def getAt (doc : SettingsValue) (ch : List String) (k : String) : Option SettingsValue :=
  (nodeFieldsAt doc ch).bind (fun fs => lookupField fs k)

/-- Functional point update at a resolved location: follow the chain of
composite keys, then overwrite the final key (the value-level rendering of
the engine's write through the resolved parent node). -/
def setAt : SettingsValue → List String → String → SettingsValue → SettingsValue
| SettingsValue.node fs, [], k, v => SettingsValue.node (setFields fs k v)
| SettingsValue.node fs, c :: ch, k, v =>
    SettingsValue.node (fs.map (fun p => if p.1 = c then (p.1, setAt p.2 ch k v) else p))
| other, _, _, _ => other

/-- JSON scalar literals, as produced by the JSON parser the coercer uses
(spec section 4.2). -/
inductive JsonScalar where
| jnum : Int → JsonScalar
| jbool : Bool → JsonScalar
| jstr : String → JsonScalar
| jnull : JsonScalar

/-- The `typeof` name of a parsed JSON literal (`typeof null` is
`"object"` in JavaScript). -/
def jsonTypeName : JsonScalar → String
| JsonScalar.jnum _ => "number"
| JsonScalar.jbool _ => "boolean"
| JsonScalar.jstr _ => "string"
| JsonScalar.jnull => "object"

def isDigitChar (c : Char) : Bool := 48 ≤ c.toNat && c.toNat ≤ 57

def digitVal (c : Char) : Nat := c.toNat - 48

/-- The JSON parser's diagnostic for an unexpected character, in the V8
template the test suite expects. -/
def unexpectedTokenMsg (c : Char) (pos : Nat) : String :=
  "SyntaxError: Unexpected token " ++ String.mk [c] ++ " in JSON at position " ++ Nat.repr pos

/-- Modelled from the spec: consuming the remaining digits of a JSON
integer literal; the first non-digit character is reported with its
position, as the underlying JSON parser does. -/
def parseDigitsTail : List Char → Nat → Nat → Except String Nat
| [], _, acc => Except.ok acc
| c :: cs, pos, acc =>
  if isDigitChar c then parseDigitsTail cs (pos + 1) (acc * 10 + digitVal c)
  else Except.error (unexpectedTokenMsg c pos)

/-- Modelled from the spec: the body of a JSON string literal (escape
sequences are not modelled; no claim exercises them). -/
def parseQuotedAux : List Char → List Char → Nat → Except String JsonScalar
| [], _, _ => Except.error ("SyntaxError: Unexpected end of JSON input")
| c :: cs, acc, pos =>
  if c = '"' then
    match cs with
    | [] => Except.ok (JsonScalar.jstr (String.mk acc.reverse))
    | d :: _ => Except.error (unexpectedTokenMsg d (pos + 1))
  else parseQuotedAux cs (c :: acc) (pos + 1)

/-- Modelled from the spec: `JSON.parse` restricted to scalar literals, as
the Value Coercer uses it (spec section 4.2). Diagnostic positions are
exact for inputs whose first character is already invalid (the only case a
claim exercises) and approximate otherwise; fractional literals are not
modelled (all numeric leaves in scope are integral). -/
def parseJsonScalar (raw : String) : Except String JsonScalar :=
  match raw.data with
  | [] => Except.error ("SyntaxError: Unexpected end of JSON input")
  | c :: cs =>
    if raw = "true" then Except.ok (JsonScalar.jbool true)
    else if raw = "false" then Except.ok (JsonScalar.jbool false)
    else if raw = "null" then Except.ok JsonScalar.jnull
    else if c = '-' then
      match cs with
      | [] => Except.error ("SyntaxError: Unexpected end of JSON input")
      | d :: ds =>
        if isDigitChar d then
          (parseDigitsTail ds 2 (digitVal d)).map (fun n => JsonScalar.jnum (-(Int.ofNat n)))
        else Except.error (unexpectedTokenMsg d 1)
    else if isDigitChar c then
      (parseDigitsTail cs 1 (digitVal c)).map (fun n => JsonScalar.jnum (Int.ofNat n))
    else if c = '"' then parseQuotedAux cs [] 0
    else Except.error (unexpectedTokenMsg c 0)

/-- The stable type-mismatch message template (spec section 6). -/
def mismatchMsg (raw tname path expected : String) : String :=
  "Type of '" ++ raw ++ "' is " ++ tname ++ ", but current type of " ++ path ++ " is " ++ expected

/-- Modelled from the spec: the Value Coercer (spec section 4.2) plus the
structural-overwrite guard (spec section 4.3).  The target type is fixed by
the existing value; a string target takes the raw text verbatim; a boolean
target requires the literal `true`/`false`, a clean parse as a number
taking precedence as a type mismatch; a numeric target parses the raw text
as a JSON literal, reporting a mismatch when the literal is of another
type and embedding the parser diagnostic when the parse fails. -/
def coerceValue (pathSpec raw : String) : SettingsValue → Except String SettingsValue
| SettingsValue.node _ => Except.error ("Can't overwrite existing setting --" ++ pathSpec)
| SettingsValue.str _ => Except.ok (SettingsValue.str raw)
| SettingsValue.bool _ =>
  if raw = "true" then Except.ok (SettingsValue.bool true)
  else if raw = "false" then Except.ok (SettingsValue.bool false)
  else
    match parseJsonScalar raw with
    | Except.ok (JsonScalar.jnum _) =>
        Except.error (mismatchMsg raw ("number") pathSpec ("boolean"))
    | _ => Except.error ("Can't evaluate --" ++ pathSpec ++ "=" ++ raw ++ " as boolean")
| SettingsValue.num _ =>
  match parseJsonScalar raw with
  | Except.ok (JsonScalar.jnum n) => Except.ok (SettingsValue.num n)
  | Except.ok j => Except.error (mismatchMsg raw (jsonTypeName j) pathSpec ("number"))
  | Except.error msg =>
      Except.error ("Can't evaluate --" ++ pathSpec ++ "=" ++ raw ++ " as number: " ++ msg)

/-- A token is a long option when it starts with the `--` prefix. -/
def isLongOption (s : String) : Bool :=
  match s.data with
  | '-' :: '-' :: _ => true
  | _ => false

/-- The token with its `--` prefix stripped. -/
def optionBody (s : String) : String := String.mk (s.data.drop 2)

def splitEqAux : List Char → Option (List Char × List Char)
| [] => none
| c :: cs => if c = '=' then some ([], cs) else (splitEqAux cs).map (fun p => (c :: p.1, p.2))

/-- Splitting an option body on the first `=` into path and inline value
(spec section 4.3); `none` when the body holds no `=`. -/
def splitFirstEq (s : String) : Option (String × String) :=
  (splitEqAux s.data).map (fun p => (String.mk p.1, String.mk p.2))

def noSuchEntryMsg (arg : String) : String :=
  "Can't evaluate command-line argument " ++ arg ++ " -- no such entry in current settings"

/-- Outcome of examining one argv token on its own: a fatal error; a point
write (location chain, final key, coerced value) fully determined by the
token; or a resolved location (chain, final key, current value) still
needing the next argv token as its value. -/
inductive StepResult where
| err : String → StepResult
| setNow : List String → String → SettingsValue → StepResult
| wantNext : List String → String → SettingsValue → StepResult

/-- Modelled from the spec: examination of a single argv token by the
Command-Line Patch Engine (spec section 4.3).  The token must carry the
long-option prefix; its body is split on the first `=` when present;
the path is resolved first ("no such entry" precedes any value handling);
a resolved boolean leaf with no inline value is an implicit-true flag
consuming no further token; any other resolved target without an inline
value requires the following argv token as its value (`wantNext`); the
coercer fixes inline values immediately. -/
def updateStep (cfg : SettingsValue) (arg : String) : StepResult :=
  if isLongOption arg then
    match splitFirstEq (optionBody arg) with
    | some (pathSpec, raw) =>
      match resolveLocFull cfg pathSpec with
      | none => StepResult.err (noSuchEntryMsg arg)
      | some (ch, pf, k) =>
        match lookupField pf k with
        | none => StepResult.err (noSuchEntryMsg arg)
        | some cur =>
          match coerceValue pathSpec raw cur with
          | Except.ok v => StepResult.setNow ch k v
          | Except.error e => StepResult.err e
    | none =>
      match resolveLocFull cfg (optionBody arg) with
      | none => StepResult.err (noSuchEntryMsg arg)
      | some (ch, pf, k) =>
        match lookupField pf k with
        | none => StepResult.err (noSuchEntryMsg arg)
        | some (SettingsValue.bool _) => StepResult.setNow ch k (SettingsValue.bool true)
        | some cur => StepResult.wantNext ch k cur
  else StepResult.err ("Unexpected argument '" ++ arg ++ "'")

/-- Modelled from the spec: `updateFromCommandLine(cfg, commandLineArgs)`
(spec section 4.3) — left-to-right processing of the argv list over the
working document, failing on the first error; a token whose resolved
non-boolean target has no inline value consumes the next argv token as the
value, its absence being the "No value provided" error.  In this pure
embedding the working copy is the threaded value itself, so the deep copy
the engine takes is invisible; the heap embedding below models it. -/
def updateFromCommandLine : SettingsValue → List String → Except String SettingsValue
| cfg, [] => Except.ok cfg
| cfg, arg :: rest =>
  match updateStep cfg arg with
  | StepResult.err e => Except.error e
  | StepResult.setNow ch k v => updateFromCommandLine (setAt cfg ch k v) rest
  | StepResult.wantNext ch k cur =>
    match rest with
    | [] => Except.error ("No value provided for option " ++ arg)
    | raw :: rest2 =>
      match coerceValue (optionBody arg) raw cur with
      | Except.ok v => updateFromCommandLine (setAt cfg ch k v) rest2
      | Except.error e => Except.error e

/-! ### The baseline settings document of the test suite -/

def baselineKubernetesOptions : Fields :=
  [("traefik", SettingsValue.bool true), ("flannel", SettingsValue.bool false)]

def baselineKubernetes : Fields :=
  [("version", SettingsValue.str ("1.23.5")),
   ("memoryInGB", SettingsValue.num 4),
   ("numberCPUs", SettingsValue.num 2),
   ("port", SettingsValue.num 6443),
   ("containerEngine", SettingsValue.str ("moby")),
   ("checkForExistingKimBuilder", SettingsValue.bool false),
   ("enabled", SettingsValue.bool true),
   ("WSLIntegrations", SettingsValue.node []),
   ("options", SettingsValue.node baselineKubernetesOptions),
   ("suppressSudo", SettingsValue.bool false)]

def baselineFields : Fields :=
  [("version", SettingsValue.num 4),
   ("kubernetes", SettingsValue.node baselineKubernetes),
   ("portForwarding", SettingsValue.node [("includeKubernetesServices", SettingsValue.bool false)]),
   ("images", SettingsValue.node
      [("showAll", SettingsValue.bool true), ("namespace", SettingsValue.str ("k8s.io"))]),
   ("telemetry", SettingsValue.bool true),
   ("updater", SettingsValue.bool true),
   ("debug", SettingsValue.bool true),
   ("pathManagementStrategy", SettingsValue.str ("notset"))]

def baselinePrefs : SettingsValue := SettingsValue.node baselineFields

/-- A leaf (scalar) value that is not a boolean: the shape of targets for
which a bare flag must consume the following argv token as its value. -/
def isNonBoolLeaf : SettingsValue → Bool
| SettingsValue.str _ => true
| SettingsValue.num _ => true
| _ => false

/-! ### Heap embedding: documents as graphs of mutable records

The TypeScript engine manipulates its settings documents through object
references: `getUpdatableNode` hands back a reference into the very
document it was given, and `updateFromCommandLine` first deep-copies the
caller's document (a JSON stringify/parse round trip) and then mutates the
copy in place.  The pure embedding above cannot express aliasing, so the
reference structure is embedded explicitly: a heap maps addresses to
mutable records whose field values are scalars or references. -/

abbrev Addr := Nat

/-- A heap value: a scalar, or a reference to a heap object. -/
inductive HVal where
| hstr : String → HVal
| hnum : Int → HVal
| hbool : Bool → HVal
| href : Addr → HVal

abbrev HObj := List (String × HVal)

/-- The mutable store: allocated objects plus the next fresh address. -/
structure Heap where
  objs : List (Addr × HObj)
  next : Addr

def emptyHeap : Heap := { objs := [], next := 0 }

def lookupAddr : List (Addr × HObj) → Addr → Option HObj
| [], _ => none
| p :: rest, a => if p.1 = a then some p.2 else lookupAddr rest a

def lookupObj (h : Heap) (a : Addr) : Option HObj := lookupAddr h.objs a

def lookupFieldH : HObj → String → Option HVal
| [], _ => none
| p :: rest, key => if p.1 = key then some p.2 else lookupFieldH rest key

/-- Reading `obj[key]` through a reference. -/
def lookupObjField (h : Heap) (a : Addr) (key : String) : Option HVal :=
  (lookupObj h a).bind (fun fs => lookupFieldH fs key)

def setFieldH (fs : HObj) (key : String) (v : HVal) : HObj :=
  fs.map (fun p => if p.1 = key then (p.1, v) else p)

/-- In-place update `obj[key] = v` of the object at address `a`; every
reference to `a` observes the new value. -/
def writeField (h : Heap) (a : Addr) (key : String) (v : HVal) : Heap :=
  { objs := h.objs.map (fun p => if p.1 = a then (p.1, setFieldH p.2 key v) else p),
    next := h.next }

def isScalarH : HVal → Bool
| HVal.href _ => false
| _ => true

mutual
/-- Reading a whole document tree out of the heap (the JSON-stringify side
of the engine's deep copy); the fuel bounds the traversal depth. -/
def readVal : Nat → Heap → HVal → Option SettingsValue
| _, _, HVal.hstr s => some (SettingsValue.str s)
| _, _, HVal.hnum n => some (SettingsValue.num n)
| _, _, HVal.hbool b => some (SettingsValue.bool b)
| 0, _, HVal.href _ => none
| Nat.succ fuel, h, HVal.href a =>
  match lookupObj h a with
  | none => none
  | some fields => (readFields fuel h fields).map SettingsValue.node
def readFields : Nat → Heap → HObj → Option (List (String × SettingsValue))
| _, _, [] => some []
| fuel, h, p :: rest =>
  match readVal fuel h p.2, readFields fuel h rest with
  | some t, some ts => some ((p.1, t) :: ts)
  | _, _ => none
end

mutual
/-- Depth of a settings tree: the fuel needed to read its heap layout. -/
def depthVal : SettingsValue → Nat
| SettingsValue.node fs => depthFields fs + 1
| _ => 0
def depthFields : List (String × SettingsValue) → Nat
| [] => 0
| p :: rest => max (depthVal p.2) (depthFields rest)
end

mutual
/-- Laying a settings tree out in the heap (the JSON-parse side of the
engine's deep copy): every mapping becomes a freshly allocated object. -/
def storeVal : SettingsValue → Heap → Heap × HVal
| SettingsValue.str s, h => (h, HVal.hstr s)
| SettingsValue.num n, h => (h, HVal.hnum n)
| SettingsValue.bool b, h => (h, HVal.hbool b)
| SettingsValue.node fs, h =>
  let r := storeFields fs h
  ({ objs := (r.1.next, r.2) :: r.1.objs, next := r.1.next + 1 }, HVal.href r.1.next)
def storeFields : List (String × SettingsValue) → Heap → Heap × HObj
| [], h => (h, [])
| p :: rest, h =>
  let r := storeVal p.2 h
  let r2 := storeFields rest r.1
  (r2.1, (p.1, r.2) :: r2.2)
end

/-- Modelled from the spec: the heap rendering of the greedy descent step
of the Path Resolver — a consumable run of segments is one whose dash-join
names a field holding a reference (a structural node). -/
def tryKeyRunsH (fields : HObj) (segs : List String) : Nat → Option (Nat × Addr)
| 0 => none
| Nat.succ k =>
  match lookupFieldH fields (joinDash (List.take (Nat.succ k) segs)) with
  | some (HVal.href a) => some (Nat.succ k, a)
  | _ => tryKeyRunsH fields segs k

/-- Modelled from the spec: the Path Resolver walk over the heap,
returning the address of the parent object holding the final key — a
reference into the given document, not into a copy. -/
def resolveSegsAuxH (h : Heap) : Nat → Addr → List String → Option (Addr × String)
| 0, _, _ => none
| Nat.succ fuel, a, segs =>
  match lookupObj h a with
  | none => none
  | some fields =>
    match tryKeyRunsH fields segs (segs.length - 1) with
    | some (m, a2) => resolveSegsAuxH h fuel a2 (List.drop m segs)
    | none =>
      match lookupFieldH fields (joinDash segs) with
      | some _ => some (a, joinDash segs)
      | none => none

/-- Modelled from the spec: `getUpdatableNode` over the heap — the pair
(parent object address, final key), or `null`. -/
def getUpdatableNodeH (h : Heap) (root : HVal) (path : String) : Option (Addr × String) :=
  match root with
  | HVal.href a => resolveSegsAuxH h (splitDash path).length a (splitDash path)
  | _ => none

/-- Modelled from the spec: the Value Coercer over heap values; identical
to `coerceValue`, with a reference playing the structural-node role. -/
def coerceValueH (pathSpec raw : String) : HVal → Except String HVal
| HVal.href _ => Except.error ("Can't overwrite existing setting --" ++ pathSpec)
| HVal.hstr _ => Except.ok (HVal.hstr raw)
| HVal.hbool _ =>
  if raw = "true" then Except.ok (HVal.hbool true)
  else if raw = "false" then Except.ok (HVal.hbool false)
  else
    match parseJsonScalar raw with
    | Except.ok (JsonScalar.jnum _) =>
        Except.error (mismatchMsg raw ("number") pathSpec ("boolean"))
    | _ => Except.error ("Can't evaluate --" ++ pathSpec ++ "=" ++ raw ++ " as boolean")
| HVal.hnum _ =>
  match parseJsonScalar raw with
  | Except.ok (JsonScalar.jnum n) => Except.ok (HVal.hnum n)
  | Except.ok j => Except.error (mismatchMsg raw (jsonTypeName j) pathSpec ("number"))
  | Except.error msg =>
      Except.error ("Can't evaluate --" ++ pathSpec ++ "=" ++ raw ++ " as number: " ++ msg)

/-- Outcome of examining one argv token over the heap. -/
inductive StepResultH where
| err : String → StepResultH
| setNow : Addr → String → HVal → StepResultH
| wantNext : Addr → String → HVal → StepResultH

/-- Modelled from the spec: examination of a single argv token by the
Patch Engine, heap rendering of `updateStep`. -/
def updateStepH (h : Heap) (root : HVal) (arg : String) : StepResultH :=
  if isLongOption arg then
    match splitFirstEq (optionBody arg) with
    | some (pathSpec, raw) =>
      match getUpdatableNodeH h root pathSpec with
      | none => StepResultH.err (noSuchEntryMsg arg)
      | some (pa, k) =>
        match lookupObjField h pa k with
        | none => StepResultH.err (noSuchEntryMsg arg)
        | some cur =>
          match coerceValueH pathSpec raw cur with
          | Except.ok v => StepResultH.setNow pa k v
          | Except.error e => StepResultH.err e
    | none =>
      match getUpdatableNodeH h root (optionBody arg) with
      | none => StepResultH.err (noSuchEntryMsg arg)
      | some (pa, k) =>
        match lookupObjField h pa k with
        | none => StepResultH.err (noSuchEntryMsg arg)
        | some (HVal.hbool _) => StepResultH.setNow pa k (HVal.hbool true)
        | some cur => StepResultH.wantNext pa k cur
  else StepResultH.err ("Unexpected argument '" ++ arg ++ "'")

/-- Modelled from the spec: the engine loop over the working copy — each
accepted token mutates the resolved leaf in place through `writeField`. -/
def updateLoopH : Heap → HVal → List String → Heap × Except String HVal
| h, root, [] => (h, Except.ok root)
| h, root, arg :: rest =>
  match updateStepH h root arg with
  | StepResultH.err e => (h, Except.error e)
  | StepResultH.setNow pa k v => updateLoopH (writeField h pa k v) root rest
  | StepResultH.wantNext pa k cur =>
    match rest with
    | [] => (h, Except.error ("No value provided for option " ++ arg))
    | raw :: rest2 =>
      match coerceValueH (optionBody arg) raw cur with
      | Except.ok v => updateLoopH (writeField h pa k v) root rest2
      | Except.error e => (h, Except.error e)

/-- Modelled from the spec: `updateFromCommandLine` over the heap — the
engine first takes a deep, independent copy of the caller's document
(JSON stringify/parse round trip, `readVal` then `storeVal`; the fuel
models the unbounded recursion of the serializer and is instantiated with
the document depth by callers) and then runs the patch loop on the copy,
leaving the caller's object graph untouched. -/
def updateFromCommandLineH (fuel : Nat) (h : Heap) (root : HVal) (argv : List String) :
    Heap × Except String HVal :=
  match readVal fuel h root with
  | none => (h, Except.error ("Cannot serialize settings"))
  | some t =>
    let r := storeVal t h
    updateLoopH r.1 r.2 argv

/-- Agreement of two heaps on all addresses below `n`. -/
def agreeBelow (h h2 : Heap) (n : Nat) : Prop :=
  ∀ a, a < n → lookupObj h2 a = lookupObj h a

/-- A heap value referencing only addresses at or above `n`. -/
def hvalGE (v : HVal) (n : Nat) : Prop := ∀ b, v = HVal.href b → n ≤ b

/-- Every object at an address at or above `n` references only addresses
at or above `n`: the working-copy region is closed under reachability. -/
def closedAbove (h : Heap) (n : Nat) : Prop :=
  ∀ a fs2, n ≤ a → lookupObj h a = some fs2 → ∀ f ∈ fs2, hvalGE f.2 n

/-- Everything the frame argument needs to know about `storeVal t h`:
the address counter grows; the heap is extended by fresh objects only —
at addresses at or above the old counter, holding references at or above
the old counter; the produced value references only fresh addresses; and
the stored tree reads back from any heap agreeing with the result below
its counter, given fuel at least the tree depth. -/
def StoreValSpec (t : SettingsValue) (h : Heap) : Prop :=
  h.next ≤ (storeVal t h).1.next
  ∧ (∃ newPart, (storeVal t h).1.objs = newPart ++ h.objs
      ∧ ∀ q ∈ newPart, h.next ≤ q.1 ∧ q.1 < (storeVal t h).1.next
          ∧ ∀ f ∈ q.2, hvalGE f.2 h.next)
  ∧ hvalGE (storeVal t h).2 h.next
  ∧ ∀ (h2 : Heap) (fuel : Nat), agreeBelow (storeVal t h).1 h2 (storeVal t h).1.next →
      depthVal t ≤ fuel → readVal fuel h2 (storeVal t h).2 = some t

/-- The `storeFields` companion of `StoreValSpec`. -/
def StoreFieldsSpec (fs : List (String × SettingsValue)) (h : Heap) : Prop :=
  h.next ≤ (storeFields fs h).1.next
  ∧ (∃ newPart, (storeFields fs h).1.objs = newPart ++ h.objs
      ∧ ∀ q ∈ newPart, h.next ≤ q.1 ∧ q.1 < (storeFields fs h).1.next
          ∧ ∀ f ∈ q.2, hvalGE f.2 h.next)
  ∧ (∀ f ∈ (storeFields fs h).2, hvalGE f.2 h.next)
  ∧ ∀ (h2 : Heap) (fuel : Nat), agreeBelow (storeFields fs h).1 h2 (storeFields fs h).1.next →
      depthFields fs ≤ fuel → readFields fuel h2 (storeFields fs h).2 = some fs

/-! ### END OF DEFINITIONS -/

/-! ### Smoke checks of the model against the repository test suite -/

example : getUpdatableNode baselinePrefs ("blah-blah-blah") = none := rfl

example : getUpdatableNode baselinePrefs ("kubernetes-options-blah") = none := rfl

example : getUpdatableNode baselinePrefs ("kubernetes") = some (baselineFields, "kubernetes") := rfl

example :
    getUpdatableNode baselinePrefs ("kubernetes-options-flannel")
      = some (baselineKubernetesOptions, "flannel") := rfl

example :
    updateFromCommandLine baselinePrefs [("--kubernetes-version=1.23.6")]
      = Except.ok (setAt baselinePrefs ["kubernetes"] ("version") (SettingsValue.str ("1.23.6"))) := rfl

example :
    updateFromCommandLine baselinePrefs [("doesnt-start-with-dash-dash=some-value")]
      = Except.error ("Unexpected argument 'doesnt-start-with-dash-dash=some-value'") := rfl

example :
    updateFromCommandLine baselinePrefs [("--kubernetes-port=angeles")]
      = Except.error ("Can't evaluate --kubernetes-port=angeles as number: SyntaxError: Unexpected token a in JSON at position 0") := rfl


theorem tryKeyRuns_bounds {fields : Fields} {segs : List String} :
    ∀ {n m : Nat} {f : Fields}, tryKeyRuns fields segs n = some (m, f) → 0 < m ∧ m ≤ n := by
  intro n
  induction n with
  | zero => intro m f h; simp [tryKeyRuns] at h
  | succ k ih =>
    intro m f h
    unfold tryKeyRuns at h
    cases hl : lookupField fields (joinDash (List.take (Nat.succ k) segs)) with
    | none =>
      rw [hl] at h
      have := ih h
      omega
    | some v =>
      rw [hl] at h
      cases v with
      | node f' => simp at h; omega
      | str s => have := ih h; omega
      | num n' => have := ih h; omega
      | bool b => have := ih h; omega

/-! ### String and list helper lemmas -/

theorem str_data_append (a b : String) : (a ++ b).data = a.data ++ b.data := by
  cases a; cases b; rfl

theorem str_append_assoc (a b c : String) : a ++ b ++ c = a ++ (b ++ c) := by
  cases a with | mk la =>
  cases b with | mk lb =>
  cases c with | mk lc =>
  exact congrArg String.mk (List.append_assoc la lb lc)

theorem dashdash_data (p : String) : ("--" ++ p).data = '-' :: '-' :: p.data := by
  cases p; rfl

theorem isLongOption_dashdash (p : String) : isLongOption ("--" ++ p) = true := by
  simp [isLongOption, dashdash_data]

theorem optionBody_dashdash (p : String) : optionBody ("--" ++ p) = p := by
  cases p; rfl

theorem splitEqAux_not_mem : ∀ (l : List Char), '=' ∉ l → splitEqAux l = none := by
  intro l
  induction l with
  | nil => intro _; rfl
  | cons c cs ih =>
    intro h
    have hc : c ≠ '=' := by intro hc; exact h (by simp [hc])
    have hcs : '=' ∉ cs := by intro hm; exact h (by simp [hm])
    simp [splitEqAux, hc, ih hcs]

theorem splitFirstEq_none (p : String) (h : '=' ∉ p.data) : splitFirstEq p = none := by
  simp [splitFirstEq, splitEqAux_not_mem p.data h]

theorem splitEqAux_split : ∀ (l r : List Char), '=' ∉ l →
    splitEqAux (l ++ '=' :: r) = some (l, r) := by
  intro l r
  induction l with
  | nil => intro _; rfl
  | cons c cs ih =>
    intro h
    have hc : c ≠ '=' := by intro hc; exact h (by simp [hc])
    have hcs : '=' ∉ cs := by intro hm; exact h (by simp [hm])
    simp [splitEqAux, hc, ih hcs]

theorem peqraw_data (p raw : String) : (p ++ "=" ++ raw).data = p.data ++ '=' :: raw.data := by
  cases p; cases raw
  simp [String.append]

theorem splitFirstEq_split (p raw : String) (h : '=' ∉ p.data) :
    splitFirstEq (p ++ "=" ++ raw) = some (p, raw) := by
  simp [splitFirstEq, peqraw_data, splitEqAux_split p.data raw.data h]

/-! ### Structural lemmas about lookup, point update and resolution -/

theorem nodeFieldsAt_str (s : String) (ch : List String) :
    nodeFieldsAt (SettingsValue.str s) ch = none := by cases ch <;> rfl

theorem nodeFieldsAt_num (n : Int) (ch : List String) :
    nodeFieldsAt (SettingsValue.num n) ch = none := by cases ch <;> rfl

theorem nodeFieldsAt_bool (b : Bool) (ch : List String) :
    nodeFieldsAt (SettingsValue.bool b) ch = none := by cases ch <;> rfl

theorem lookupField_mem {fs : Fields} {key : String} {v : SettingsValue} :
    lookupField fs key = some v → (key, v) ∈ fs := by
  induction fs with
  | nil => intro h; simp [lookupField] at h
  | cons p rest ih =>
    obtain ⟨a, b⟩ := p
    intro h
    by_cases hk : a = key
    · simp [lookupField, hk] at h
      subst hk
      subst h
      exact List.mem_cons_self _ _
    · simp [lookupField, hk] at h
      exact List.mem_cons_of_mem _ (ih h)


theorem lookupField_setFields_self {fs : Fields} {key : String} {v0 : SettingsValue}
    (v : SettingsValue) (h : lookupField fs key = some v0) :
    lookupField (setFields fs key v) key = some v := by
  induction fs with
  | nil => simp [lookupField] at h
  | cons p rest ih =>
    obtain ⟨a, b⟩ := p
    by_cases hk : a = key
    · simp [setFields, lookupField, hk]
    · have h' : lookupField rest key = some v0 := by simpa [lookupField, hk] using h
      simpa [setFields, lookupField, hk] using ih h'

theorem lookupField_map_update (c : String) (g : SettingsValue → SettingsValue) :
    ∀ (fs : Fields) (key : String),
      lookupField (fs.map (fun p => if p.1 = c then (p.1, g p.2) else p)) key
        = if key = c then (lookupField fs c).map g else lookupField fs key := by
  intro fs
  induction fs with
  | nil => intro key; simp [lookupField]
  | cons p rest ih =>
    obtain ⟨a, b⟩ := p
    intro key
    by_cases hac : a = c
    · subst hac
      by_cases hka : key = a
      · subst hka
        simp [lookupField]
      · have hak : a ≠ key := fun h => hka h.symm
        simp [lookupField, hak, hka, ih key]
    · by_cases hak : a = key
      · subst hak
        have hkc : a ≠ c := hac
        simp [lookupField, hac, hkc]
      · by_cases hkc : key = c
        · simp [lookupField, hak, hac, hkc, ih]
        · simp [lookupField, hak, hac, hkc, ih]

theorem getAt_setAt_self {doc : SettingsValue} {ch : List String} {k : String}
    {v0 : SettingsValue} (v : SettingsValue) (h : getAt doc ch k = some v0) :
    getAt (setAt doc ch k v) ch k = some v := by
  induction ch generalizing doc with
  | nil =>
    cases doc with
    | node fs =>
      have h' : lookupField fs k = some v0 := by simpa [getAt, nodeFieldsAt] using h
      simpa [getAt, setAt, nodeFieldsAt] using lookupField_setFields_self v h'
    | str s => simp [getAt, nodeFieldsAt_str] at h
    | num n => simp [getAt, nodeFieldsAt_num] at h
    | bool b => simp [getAt, nodeFieldsAt_bool] at h
  | cons c ch' ih =>
    cases doc with
    | node fs =>
      simp only [getAt, nodeFieldsAt] at h
      cases hc : lookupField fs c with
      | none => rw [hc] at h; simp at h
      | some w =>
        rw [hc] at h
        simp only [getAt, setAt, nodeFieldsAt]
        rw [lookupField_map_update c (fun x => setAt x ch' k v) fs c, if_pos rfl, hc]
        simp only [Option.map_some']
        exact @ih w h
    | str s => simp [getAt, nodeFieldsAt_str] at h
    | num n => simp [getAt, nodeFieldsAt_num] at h
    | bool b => simp [getAt, nodeFieldsAt_bool] at h

theorem tryKeyRuns_sound {fields : Fields} {segs : List String} :
    ∀ {n m : Nat} {f : Fields}, tryKeyRuns fields segs n = some (m, f) →
      lookupField fields (joinDash (List.take m segs)) = some (SettingsValue.node f) := by
  intro n
  induction n with
  | zero => intro m f h; simp [tryKeyRuns] at h
  | succ k ih =>
    intro m f h
    unfold tryKeyRuns at h
    cases hl : lookupField fields (joinDash (List.take (Nat.succ k) segs)) with
    | none => rw [hl] at h; exact ih h
    | some v =>
      rw [hl] at h
      cases v with
      | node f' =>
        simp at h
        obtain ⟨h1, h2⟩ := h
        subst h1; subst h2
        exact hl
      | str s => exact ih h
      | num n' => exact ih h
      | bool b => exact ih h

theorem resolveSegsAux_nodeFieldsAt :
    ∀ {fuel : Nat} {fields : Fields} {segs ch : List String} {pf : Fields} {k : String},
      resolveSegsAux fuel fields segs = some (ch, pf, k) →
      nodeFieldsAt (SettingsValue.node fields) ch = some pf := by
  intro fuel
  induction fuel with
  | zero => intro fields segs ch pf k h; simp [resolveSegsAux] at h
  | succ fu ih =>
    intro fields segs ch pf k h
    unfold resolveSegsAux at h
    split at h
    · rename_i m f htr
      cases hrec : resolveSegsAux fu f (List.drop m segs) with
      | none => rw [hrec] at h; simp at h
      | some r =>
        obtain ⟨ch', pf', k'⟩ := r
        rw [hrec] at h
        simp only [Option.map_some', Option.some.injEq, Prod.mk.injEq] at h
        obtain ⟨h1, h2, h3⟩ := h
        subst h1; subst h2; subst h3
        simp only [nodeFieldsAt, tryKeyRuns_sound htr]
        exact ih hrec
    · rename_i htr
      split at h
      · rename_i v hl
        simp only [Option.some.injEq, Prod.mk.injEq] at h
        obtain ⟨h1, h2, h3⟩ := h
        subst h1; subst h2
        rfl
      · exact absurd h (by simp)

theorem resolveSegsAux_key_exists :
    ∀ {fuel : Nat} {fields : Fields} {segs ch : List String} {pf : Fields} {k : String},
      resolveSegsAux fuel fields segs = some (ch, pf, k) →
      ∃ v, lookupField pf k = some v := by
  intro fuel
  induction fuel with
  | zero => intro fields segs ch pf k h; simp [resolveSegsAux] at h
  | succ fu ih =>
    intro fields segs ch pf k h
    unfold resolveSegsAux at h
    split at h
    · rename_i m f htr
      cases hrec : resolveSegsAux fu f (List.drop m segs) with
      | none => rw [hrec] at h; simp at h
      | some r =>
        obtain ⟨ch', pf', k'⟩ := r
        rw [hrec] at h
        simp only [Option.map_some', Option.some.injEq, Prod.mk.injEq] at h
        obtain ⟨h1, h2, h3⟩ := h
        subst h2; subst h3
        exact ih hrec
    · rename_i htr
      split at h
      · rename_i v hl
        simp only [Option.some.injEq, Prod.mk.injEq] at h
        obtain ⟨h1, h2, h3⟩ := h
        subst h2; subst h3
        exact ⟨v, hl⟩
      · exact absurd h (by simp)

theorem resolveLocFull_getAt {doc : SettingsValue} {path : String} {ch : List String}
    {pf : Fields} {k : String} (h : resolveLocFull doc path = some (ch, pf, k)) :
    getAt doc ch k = lookupField pf k := by
  cases doc with
  | node fs =>
    simp only [resolveLocFull, resolveSegs] at h
    have := resolveSegsAux_nodeFieldsAt h
    simp [getAt, this]
  | str s => simp [resolveLocFull] at h
  | num n => simp [resolveLocFull] at h
  | bool b => simp [resolveLocFull] at h

/-! ### Engine step lemmas -/

theorem updateFromCommandLine_cons (cfg : SettingsValue) (arg : String) (rest : List String) :
    updateFromCommandLine cfg (arg :: rest) =
      match updateStep cfg arg with
      | StepResult.err e => Except.error e
      | StepResult.setNow ch k v => updateFromCommandLine (setAt cfg ch k v) rest
      | StepResult.wantNext ch k cur =>
        match rest with
        | [] => Except.error ("No value provided for option " ++ arg)
        | raw :: rest2 =>
          match coerceValue (optionBody arg) raw cur with
          | Except.ok v => updateFromCommandLine (setAt cfg ch k v) rest2
          | Except.error e => Except.error e := by
  simp only [updateFromCommandLine]

theorem updateStep_implicit_bool {doc : SettingsValue} {p : String} {ch : List String}
    {pf : Fields} {k : String} {b : Bool}
    (hne : '=' ∉ p.data) (hres : resolveLocFull doc p = some (ch, pf, k))
    (hcur : lookupField pf k = some (SettingsValue.bool b)) :
    updateStep doc ("--" ++ p) = StepResult.setNow ch k (SettingsValue.bool true) := by
  simp [updateStep, isLongOption_dashdash, optionBody_dashdash, splitFirstEq_none p hne,
    hres, hcur]

theorem updateStep_wantNext {doc : SettingsValue} {p : String} {ch : List String}
    {pf : Fields} {k : String} {cur : SettingsValue}
    (hne : '=' ∉ p.data) (hres : resolveLocFull doc p = some (ch, pf, k))
    (hcur : lookupField pf k = some cur) (hnb : ∀ b, cur ≠ SettingsValue.bool b) :
    updateStep doc ("--" ++ p) = StepResult.wantNext ch k cur := by
  cases cur with
  | bool b => exact absurd rfl (hnb b)
  | str s =>
    simp [updateStep, isLongOption_dashdash, optionBody_dashdash, splitFirstEq_none p hne,
      hres, hcur]
  | num n =>
    simp [updateStep, isLongOption_dashdash, optionBody_dashdash, splitFirstEq_none p hne,
      hres, hcur]
  | node fs2 =>
    simp [updateStep, isLongOption_dashdash, optionBody_dashdash, splitFirstEq_none p hne,
      hres, hcur]

theorem updateStep_inline {doc : SettingsValue} {p raw : String} {ch : List String}
    {pf : Fields} {k : String} {cur : SettingsValue}
    (hne : '=' ∉ p.data) (hres : resolveLocFull doc p = some (ch, pf, k))
    (hcur : lookupField pf k = some cur) :
    updateStep doc ("--" ++ (p ++ "=" ++ raw)) =
      match coerceValue p raw cur with
      | Except.ok v => StepResult.setNow ch k v
      | Except.error e => StepResult.err e := by
  simp [updateStep, isLongOption_dashdash, optionBody_dashdash, splitFirstEq_split p raw hne,
    hres, hcur]

theorem updateFromCommandLine_append :
    ∀ (n : Nat) (pre : List String), pre.length ≤ n →
      ∀ (doc cfg' : SettingsValue) (post : List String),
        updateFromCommandLine doc pre = Except.ok cfg' →
        updateFromCommandLine doc (pre ++ post) = updateFromCommandLine cfg' post := by
  intro n
  induction n with
  | zero =>
    intro pre hlen doc cfg' post h
    have hnil : pre = [] := List.eq_nil_of_length_eq_zero (Nat.le_zero.mp hlen)
    subst hnil
    simp only [updateFromCommandLine, Except.ok.injEq] at h
    subst h
    simp
  | succ m ih =>
    intro pre hlen doc cfg' post h
    cases pre with
    | nil =>
      simp only [updateFromCommandLine, Except.ok.injEq] at h
      subst h
      simp
    | cons arg rest =>
      rw [List.cons_append]
      rw [updateFromCommandLine_cons] at h
      rw [updateFromCommandLine_cons]
      cases hstep : updateStep doc arg with
      | err e => rw [hstep] at h; exact absurd h (by simp)
      | setNow ch k v =>
        rw [hstep] at h
        simp only at h
        simp only [hstep]
        exact ih rest (by simp at hlen; omega) _ _ post h
      | wantNext ch k cur =>
        rw [hstep] at h
        simp only at h
        simp only [hstep]
        cases rest with
        | nil => exact absurd h (by simp)
        | cons raw rest2 =>
          simp only [List.cons_append]
          simp only at h
          cases hc : coerceValue (optionBody arg) raw cur with
          | error e => rw [hc] at h; exact absurd h (by simp)
          | ok v =>
            rw [hc] at h
            simp only at h
            exact ih rest2 (by simp at hlen; omega) _ _ post h

/-! ### Resolver negative-path lemmas -/

theorem tryKeyRuns_none_of_lookups {fields : Fields} {segs : List String} :
    ∀ (n : Nat), (∀ j, 0 < j → j ≤ n → lookupField fields (joinDash (List.take j segs)) = none) →
      tryKeyRuns fields segs n = none := by
  intro n
  induction n with
  | zero => intro _; rfl
  | succ k ih =>
    intro hj
    unfold tryKeyRuns
    rw [hj (Nat.succ k) (by omega) (by omega)]
    exact ih (fun j h1 h2 => hj j h1 (by omega))

theorem splitDashAux_ne_nil : ∀ (cs acc : List Char), splitDashAux cs acc ≠ [] := by
  intro cs
  induction cs with
  | nil => intro acc h; simp [splitDashAux] at h
  | cons c cs' ih =>
    intro acc
    by_cases hc : c = '-'
    · simp [splitDashAux, hc]
    · simp only [splitDashAux, hc, if_false]
      exact ih _

theorem splitDash_length_pos (s : String) : 0 < (splitDash s).length := by
  simp only [splitDash, List.length_map]
  exact List.length_pos.mpr (splitDashAux_ne_nil s.data [])

/-! ### Claim theorems: C1, C2, C9 -/

/-- C1: on the baseline settings document, the five-flag batch
`['--kubernetes-options-traefik=false', '--kubernetes-suppressSudo',
'--portForwarding-includeKubernetesServices=true',
'--kubernetes-containerEngine=containerd', '--kubernetes-port', '6444']`
succeeds and returns the baseline document with exactly those five point
updates applied (traefik `false`, suppressSudo `true`,
includeKubernetesServices `true`, containerEngine `"containerd"`,
port `6444`) and every other leaf untouched. -/
theorem claimC1_multi_flag_batch :
    updateFromCommandLine baselinePrefs
      [("--kubernetes-options-traefik=false"), ("--kubernetes-suppressSudo"),
       ("--portForwarding-includeKubernetesServices=true"),
       ("--kubernetes-containerEngine=containerd"),
       ("--kubernetes-port"), ("6444")]
    = Except.ok (setAt (setAt (setAt (setAt (setAt baselinePrefs
        ["kubernetes", "options"] ("traefik") (SettingsValue.bool false))
        ["kubernetes"] ("suppressSudo") (SettingsValue.bool true))
        ["portForwarding"] ("includeKubernetesServices") (SettingsValue.bool true))
        ["kubernetes"] ("containerEngine") (SettingsValue.str ("containerd")))
        ["kubernetes"] ("port") (SettingsValue.num 6444)) := rfl

/-- C2 counterexample: the path `kubernetes` resolves to a structural
(non-leaf) node, yet `getUpdatableNode` does not return NotFound for it —
it returns the (parent, key) pair, as the repository's test
"returns the full pref with a top-level accessor" requires.  This refutes
the claim's clause that every path resolving to a structural node yields
NotFound. -/
theorem claimC2_counterexample :
    getUpdatableNode baselinePrefs ("kubernetes") ≠ none := by
  rw [show getUpdatableNode baselinePrefs ("kubernetes")
        = some (baselineFields, "kubernetes") from rfl]
  exact fun hcontra => Option.noConfusion hcontra

/-- C2 (amended): `getUpdatableNode` signals invalid paths by returning
NotFound (`none`) rather than raising: a path none of whose dash-joined
prefixes names a field of the document yields `none` (covering unmatched
top-level segments); an unmatched intermediate segment yields `none`
(here the repository's own test case); whatever the resolver does return
is an existing entry of the resolved parent node; and — contrary to the
original claim — a path resolving to a structural node returns its
(parent, key) pair, the structural-overwrite rejection being raised later
by `updateFromCommandLine`. -/
theorem claimC2_resolver_notfound :
    (∀ (fs : Fields) (p : String),
        (∀ j, 0 < j → j ≤ (splitDash p).length →
           lookupField fs (joinDash (List.take j (splitDash p))) = none) →
        getUpdatableNode (SettingsValue.node fs) p = none)
    ∧ (∀ (doc : SettingsValue) (p : String) (pf : Fields) (k : String),
        getUpdatableNode doc p = some (pf, k) → ∃ v, lookupField pf k = some v)
    ∧ getUpdatableNode baselinePrefs ("kubernetes-options-blah") = none
    ∧ getUpdatableNode baselinePrefs ("kubernetes") = some (baselineFields, "kubernetes") := by
  refine ⟨?_, ?_, rfl, rfl⟩
  · intro fs p hj
    have hpos := splitDash_length_pos p
    simp only [getUpdatableNode, resolveLocFull, resolveSegs]
    obtain ⟨l, hl⟩ : ∃ l, (splitDash p).length = l + 1 := ⟨(splitDash p).length - 1, by omega⟩
    rw [hl]
    unfold resolveSegsAux
    rw [tryKeyRuns_none_of_lookups ((splitDash p).length - 1)
      (fun j h1 h2 => hj j h1 (by omega))]
    have hfull := hj (splitDash p).length hpos (le_refl _)
    rw [List.take_length] at hfull
    rw [hfull]
    rfl
  · intro doc p pf k h
    cases doc with
    | node fs =>
      simp only [getUpdatableNode, resolveLocFull] at h
      cases hr : resolveSegs fs (splitDash p) with
      | none => rw [hr] at h; exact absurd h (by simp)
      | some r =>
        obtain ⟨ch', pf', k'⟩ := r
        rw [hr] at h
        simp only [Option.map_some', Option.some.injEq, Prod.mk.injEq] at h
        obtain ⟨h1, h2⟩ := h
        subst h1; subst h2
        exact resolveSegsAux_key_exists hr
    | str s => simp [getUpdatableNode, resolveLocFull] at h
    | num n => simp [getUpdatableNode, resolveLocFull] at h
    | bool b => simp [getUpdatableNode, resolveLocFull] at h

/-- Witness for the amended C2, instantiating its universal parts on the
repository's own test inputs. -/
theorem claimC2_resolver_notfound_witness :
    getUpdatableNode (SettingsValue.node baselineFields) ("blah-blah-blah") = none := by
  apply claimC2_resolver_notfound.1
  intro j h1 h2
  rw [show (splitDash ("blah-blah-blah")).length = 3 from rfl] at h2
  interval_cases j <;> rfl

/-- C9: the empty argv list is the identity patch — for every settings
document, `updateFromCommandLine doc []` succeeds and returns a value equal
to `doc`. -/
theorem claimC9_empty_argv_identity (doc : SettingsValue) :
    updateFromCommandLine doc [] = Except.ok doc := rfl

/-! ### Claim theorems: C4, C5 -/

/-- C4: on every document in which the path addresses a boolean leaf, a
bare `--path` flag (no `=`) is implicit true: processing it turns exactly
that leaf to `true` and continues with the remaining argv tokens
unconsumed, and the updated document holds `true` at that leaf. -/
theorem claimC4_implicit_boolean (doc : SettingsValue) (p : String) (ch : List String)
    (pf : Fields) (k : String) (b : Bool) (rest : List String)
    (hne : '=' ∉ p.data)
    (hres : resolveLocFull doc p = some (ch, pf, k))
    (hcur : lookupField pf k = some (SettingsValue.bool b)) :
    updateFromCommandLine doc (("--" ++ p) :: rest)
      = updateFromCommandLine (setAt doc ch k (SettingsValue.bool true)) rest
    ∧ getAt (setAt doc ch k (SettingsValue.bool true)) ch k = some (SettingsValue.bool true) := by
  constructor
  · rw [updateFromCommandLine_cons, updateStep_implicit_bool hne hres hcur]
  · have hget : getAt doc ch k = some (SettingsValue.bool b) := by
      rw [resolveLocFull_getAt hres]; exact hcur
    exact getAt_setAt_self _ hget

/-- Witness for C4 on the repository's own test input
`--kubernetes-suppressSudo` over the baseline document. -/
theorem claimC4_implicit_boolean_witness :
    updateFromCommandLine baselinePrefs [("--kubernetes-suppressSudo")]
      = updateFromCommandLine
          (setAt baselinePrefs ["kubernetes"] ("suppressSudo") (SettingsValue.bool true)) []
    ∧ getAt (setAt baselinePrefs ["kubernetes"] ("suppressSudo") (SettingsValue.bool true))
        ["kubernetes"] ("suppressSudo") = some (SettingsValue.bool true) :=
  claimC4_implicit_boolean baselinePrefs ("kubernetes-suppressSudo") ["kubernetes"]
    baselineKubernetes ("suppressSudo") false [] (by decide) rfl rfl

/-- C5: a `--path` token with no inline value whose resolved target is a
non-boolean leaf and which is the last argv entry fails with
"No value provided for option --path"; this holds after any cleanly
applied earlier argv batch (errors surface at the first failing token in
left-to-right order). -/
theorem claimC5_missing_value (doc cfg' : SettingsValue) (pre : List String) (p : String)
    (ch : List String) (pf : Fields) (k : String) (cur : SettingsValue)
    (hpre : updateFromCommandLine doc pre = Except.ok cfg')
    (hne : '=' ∉ p.data)
    (hres : resolveLocFull cfg' p = some (ch, pf, k))
    (hcur : lookupField pf k = some cur)
    (hleaf : isNonBoolLeaf cur = true) :
    updateFromCommandLine doc (pre ++ [("--" ++ p)])
      = Except.error ("No value provided for option --" ++ p) := by
  rw [updateFromCommandLine_append pre.length pre (le_refl _) doc cfg' _ hpre]
  have hnb : ∀ b, cur ≠ SettingsValue.bool b := by
    intro b hb; subst hb; simp [isNonBoolLeaf] at hleaf
  rw [updateFromCommandLine_cons, updateStep_wantNext hne hres hcur hnb]
  show Except.error ("No value provided for option " ++ ("--" ++ p))
    = Except.error ("No value provided for option --" ++ p)
  rw [← str_append_assoc]
  rfl

/-- Witness for C5 on the repository's own test input: after
`--kubernetes-version 1.2.3` applies cleanly, the trailing
`--kubernetes-memoryInGB` fails for lack of a value. -/
theorem claimC5_missing_value_witness :
    updateFromCommandLine baselinePrefs
      ([("--kubernetes-version"), ("1.2.3")] ++ [("--kubernetes-memoryInGB")])
      = Except.error ("No value provided for option --kubernetes-memoryInGB") :=
  claimC5_missing_value baselinePrefs
    (setAt baselinePrefs ["kubernetes"] ("version") (SettingsValue.str ("1.2.3")))
    [("--kubernetes-version"), ("1.2.3")] ("kubernetes-memoryInGB") ["kubernetes"]
    (setFields baselineKubernetes ("version") (SettingsValue.str ("1.2.3")))
    ("memoryInGB") (SettingsValue.num 4) rfl (by decide) rfl rfl rfl

/-! ### Claim theorems: C6, C7, C8 -/

/-- C6: when the raw text parses cleanly as a JSON literal of a different
scalar type than the addressed leaf, the engine fails with the stable
type-mismatch template "Type of '<value>' is <actualType>, but current
type of <path> is <expectedType>": a numeric leaf offered a boolean
literal reports boolean vs. number, and a boolean leaf offered a numeric
literal reports number vs. boolean; in both cases the mismatch takes
precedence over a plain parse failure (the literal parsed cleanly). -/
theorem claimC6_type_mismatch :
    (∀ (doc : SettingsValue) (p raw : String) (ch : List String) (pf : Fields) (k : String)
        (n : Int) (b : Bool) (rest : List String),
        '=' ∉ p.data →
        resolveLocFull doc p = some (ch, pf, k) →
        lookupField pf k = some (SettingsValue.num n) →
        parseJsonScalar raw = Except.ok (JsonScalar.jbool b) →
        updateFromCommandLine doc (("--" ++ (p ++ "=" ++ raw)) :: rest)
          = Except.error (mismatchMsg raw ("boolean") p ("number")))
    ∧ (∀ (doc : SettingsValue) (p raw : String) (ch : List String) (pf : Fields) (k : String)
        (b : Bool) (n : Int) (rest : List String),
        '=' ∉ p.data →
        resolveLocFull doc p = some (ch, pf, k) →
        lookupField pf k = some (SettingsValue.bool b) →
        parseJsonScalar raw = Except.ok (JsonScalar.jnum n) →
        updateFromCommandLine doc (("--" ++ (p ++ "=" ++ raw)) :: rest)
          = Except.error (mismatchMsg raw ("number") p ("boolean"))) := by
  constructor
  · intro doc p raw ch pf k n b rest hne hres hcur hparse
    rw [updateFromCommandLine_cons, updateStep_inline hne hres hcur]
    simp [coerceValue, hparse, jsonTypeName]
  · intro doc p raw ch pf k b n rest hne hres hcur hparse
    have ht : raw ≠ "true" := by
      intro h; subst h
      rw [show parseJsonScalar ("true") = Except.ok (JsonScalar.jbool true) from rfl] at hparse
      exact absurd hparse (by simp)
    have hf : raw ≠ "false" := by
      intro h; subst h
      rw [show parseJsonScalar ("false") = Except.ok (JsonScalar.jbool false) from rfl] at hparse
      exact absurd hparse (by simp)
    rw [updateFromCommandLine_cons, updateStep_inline hne hres hcur]
    simp [coerceValue, ht, hf, hparse]

/-- Witness for C6 on the repository's own test inputs
`--kubernetes-memoryInGB=true` and `--kubernetes-enabled=7`. -/
theorem claimC6_type_mismatch_witness :
    updateFromCommandLine baselinePrefs [("--kubernetes-memoryInGB=true")]
      = Except.error (mismatchMsg ("true") ("boolean") ("kubernetes-memoryInGB") ("number"))
    ∧ updateFromCommandLine baselinePrefs [("--kubernetes-enabled=7")]
      = Except.error (mismatchMsg ("7") ("number") ("kubernetes-enabled") ("boolean")) :=
  ⟨claimC6_type_mismatch.1 baselinePrefs ("kubernetes-memoryInGB") ("true") ["kubernetes"]
      baselineKubernetes ("memoryInGB") 4 true [] (by decide) rfl rfl rfl,
   claimC6_type_mismatch.2 baselinePrefs ("kubernetes-enabled") ("7") ["kubernetes"]
      baselineKubernetes ("enabled") true 7 [] (by decide) rfl rfl rfl⟩

/-- C7: for a numeric leaf the raw text is parsed as a JSON numeric
literal, and a parse failure raises an error naming the `--path=value`
pair and embedding the underlying parser's diagnostic; concretely,
`--kubernetes-port=angeles` fails with the full V8-style message. -/
theorem claimC7_numeric_parse_error :
    (∀ (doc : SettingsValue) (p raw : String) (ch : List String) (pf : Fields) (k : String)
        (n : Int) (msg : String) (rest : List String),
        '=' ∉ p.data →
        resolveLocFull doc p = some (ch, pf, k) →
        lookupField pf k = some (SettingsValue.num n) →
        parseJsonScalar raw = Except.error msg →
        updateFromCommandLine doc (("--" ++ (p ++ "=" ++ raw)) :: rest)
          = Except.error ("Can't evaluate --" ++ p ++ "=" ++ raw ++ " as number: " ++ msg))
    ∧ updateFromCommandLine baselinePrefs [("--kubernetes-port=angeles")]
        = Except.error ("Can't evaluate --kubernetes-port=angeles as number: SyntaxError: Unexpected token a in JSON at position 0") := by
  constructor
  · intro doc p raw ch pf k n msg rest hne hres hcur hparse
    rw [updateFromCommandLine_cons, updateStep_inline hne hres hcur]
    simp [coerceValue, hparse]
  · rfl

/-- Witness for C7, instantiating its universal part on the repository's
own test input `--kubernetes-port=angeles`. -/
theorem claimC7_numeric_parse_error_witness :
    updateFromCommandLine baselinePrefs [("--kubernetes-port=angeles")]
      = Except.error ("Can't evaluate --kubernetes-port=angeles as number: SyntaxError: Unexpected token a in JSON at position 0") :=
  claimC7_numeric_parse_error.1 baselinePrefs ("kubernetes-port") ("angeles") ["kubernetes"]
    baselineKubernetes ("port") 6443 ("SyntaxError: Unexpected token a in JSON at position 0")
    [] (by decide) rfl rfl rfl

/-- C8: a path that addresses a structural (non-leaf) node is rejected
with "Can't overwrite existing setting --path" — in the two-token form and
in the inline `=` form alike — and the subtree is never replaced by a
scalar; concretely `['--kubernetes-options', '33']` fails so. -/
theorem claimC8_structural_overwrite :
    (∀ (doc : SettingsValue) (p w : String) (ch : List String) (pf : Fields) (k : String)
        (fs2 : Fields) (rest : List String),
        '=' ∉ p.data →
        resolveLocFull doc p = some (ch, pf, k) →
        lookupField pf k = some (SettingsValue.node fs2) →
        updateFromCommandLine doc (("--" ++ p) :: w :: rest)
          = Except.error ("Can't overwrite existing setting --" ++ p)
        ∧ updateFromCommandLine doc (("--" ++ (p ++ "=" ++ w)) :: rest)
          = Except.error ("Can't overwrite existing setting --" ++ p))
    ∧ updateFromCommandLine baselinePrefs [("--kubernetes-options"), ("33")]
        = Except.error ("Can't overwrite existing setting --kubernetes-options") := by
  constructor
  · intro doc p w ch pf k fs2 rest hne hres hcur
    have hnb : ∀ b, SettingsValue.node fs2 ≠ SettingsValue.bool b := by
      intro b h; exact SettingsValue.noConfusion h
    constructor
    · rw [updateFromCommandLine_cons, updateStep_wantNext hne hres hcur hnb]
      simp [optionBody_dashdash, coerceValue]
    · rw [updateFromCommandLine_cons, updateStep_inline hne hres hcur]
      simp [coerceValue]
  · rfl

/-- Witness for C8, instantiating its universal part on the repository's
own test input `['--kubernetes-options', '33']` and the inline variant. -/
theorem claimC8_structural_overwrite_witness :
    updateFromCommandLine baselinePrefs [("--kubernetes-options"), ("33")]
      = Except.error ("Can't overwrite existing setting --kubernetes-options")
    ∧ updateFromCommandLine baselinePrefs [("--kubernetes-options=33")]
      = Except.error ("Can't overwrite existing setting --kubernetes-options") :=
  claimC8_structural_overwrite.1 baselinePrefs ("kubernetes-options") ("33") ["kubernetes"]
    baselineKubernetes ("options") baselineKubernetesOptions [] (by decide) rfl rfl

/-! ### Heap lemmas: writes through resolved references -/

theorem lookupFieldH_setFieldH (fs : HObj) (k : String) (v : HVal) :
    ∀ key, lookupFieldH (setFieldH fs k v) key
      = if key = k then (lookupFieldH fs k).map (fun _ => v) else lookupFieldH fs key := by
  induction fs with
  | nil => intro key; simp [setFieldH, lookupFieldH]
  | cons p rest ih =>
    obtain ⟨a, b⟩ := p
    intro key
    by_cases hak : a = k
    · subst hak
      by_cases hka : key = a
      · subst hka
        simp [setFieldH, lookupFieldH]
      · have hak2 : a ≠ key := fun h => hka h.symm
        simp only [setFieldH, List.map_cons] at ih ⊢
        simp [lookupFieldH, hak2, hka, ih]
    · by_cases hakey : a = key
      · subst hakey
        have hkc : a ≠ k := hak
        simp [setFieldH, lookupFieldH, hak, hkc]
      · by_cases hkk : key = k
        · simp only [setFieldH, List.map_cons] at ih ⊢
          simp [lookupFieldH, hak, hakey, hkk, ih]
        · simp only [setFieldH, List.map_cons] at ih ⊢
          simp [lookupFieldH, hak, hakey, hkk, ih]

theorem lookupAddr_write (objs : List (Addr × HObj)) (pa : Addr) (k : String) (v : HVal) :
    ∀ a, lookupAddr (objs.map (fun q => if q.1 = pa then (q.1, setFieldH q.2 k v) else q)) a
      = if a = pa then (lookupAddr objs pa).map (fun fs => setFieldH fs k v)
        else lookupAddr objs a := by
  induction objs with
  | nil => intro a; simp [lookupAddr]
  | cons q rest ih =>
    obtain ⟨qa, qfs⟩ := q
    intro a
    by_cases hqa : qa = pa
    · subst hqa
      by_cases haq : a = qa
      · subst haq
        simp [lookupAddr]
      · have hqa2 : qa ≠ a := fun h => haq h.symm
        simp [lookupAddr, hqa2, haq, ih]
    · by_cases haq : qa = a
      · subst haq
        have hap : qa ≠ pa := hqa
        simp [lookupAddr, hqa, hap]
      · by_cases hap : a = pa
        · simp [lookupAddr, hqa, haq, hap, ih]
        · simp [lookupAddr, hqa, haq, hap, ih]

theorem lookupObj_write (h : Heap) (pa : Addr) (k : String) (v : HVal) (a : Addr) :
    lookupObj (writeField h pa k v) a
      = if a = pa then (lookupObj h pa).map (fun fs => setFieldH fs k v)
        else lookupObj h a := by
  simp [lookupObj, writeField, lookupAddr_write]

theorem tryKeyRunsH_stable {fs : HObj} {k : String} {v w : HVal}
    (hcur : lookupFieldH fs k = some w) (hw : isScalarH w = true) (hv : isScalarH v = true) :
    ∀ (n : Nat) (segs : List String),
      tryKeyRunsH (setFieldH fs k v) segs n = tryKeyRunsH fs segs n := by
  intro n
  induction n with
  | zero => intro segs; rfl
  | succ m ih =>
    intro segs
    unfold tryKeyRunsH
    rw [lookupFieldH_setFieldH]
    by_cases hkey : joinDash (List.take (Nat.succ m) segs) = k
    · rw [if_pos hkey, hkey, hcur]
      cases w with
      | href a => simp [isScalarH] at hw
      | hstr s =>
        cases v with
        | href a => simp [isScalarH] at hv
        | hstr s2 => simp [ih]
        | hnum n2 => simp [ih]
        | hbool b2 => simp [ih]
      | hnum n2 =>
        cases v with
        | href a => simp [isScalarH] at hv
        | hstr s2 => simp [ih]
        | hnum n3 => simp [ih]
        | hbool b2 => simp [ih]
      | hbool b =>
        cases v with
        | href a => simp [isScalarH] at hv
        | hstr s2 => simp [ih]
        | hnum n2 => simp [ih]
        | hbool b2 => simp [ih]
    · rw [if_neg hkey]
      cases hl : lookupFieldH fs (joinDash (List.take (Nat.succ m) segs)) with
      | none => simp [ih]
      | some u =>
        cases u with
        | href a => rfl
        | hstr s => simp [ih]
        | hnum n2 => simp [ih]
        | hbool b => simp [ih]

theorem resolveSegsAuxH_write_stable {h : Heap} {pa : Addr} {k : String} {v w : HVal}
    {fs0 : HObj}
    (hobj : lookupObj h pa = some fs0) (hcur : lookupFieldH fs0 k = some w)
    (hw : isScalarH w = true) (hv : isScalarH v = true) :
    ∀ (fuel : Nat) (a : Addr) (segs : List String),
      resolveSegsAuxH (writeField h pa k v) fuel a segs = resolveSegsAuxH h fuel a segs := by
  intro fuel
  induction fuel with
  | zero => intro a segs; rfl
  | succ fu ih =>
    intro a segs
    unfold resolveSegsAuxH
    rw [lookupObj_write]
    by_cases hap : a = pa
    · subst hap
      rw [if_pos rfl, hobj]
      simp only [Option.map_some']
      cases htr : tryKeyRunsH fs0 segs (segs.length - 1) with
      | some ma =>
        obtain ⟨m, a2⟩ := ma
        simp [tryKeyRunsH_stable hcur hw hv, htr, ih]
      | none =>
        by_cases hkey : joinDash segs = k
        · simp [tryKeyRunsH_stable hcur hw hv, htr, lookupFieldH_setFieldH, hkey, hcur]
        · simp [tryKeyRunsH_stable hcur hw hv, htr, lookupFieldH_setFieldH, hkey]
    · rw [if_neg hap]
      cases hl : lookupObj h a with
      | none => rfl
      | some fields =>
        cases htr : tryKeyRunsH fields segs (segs.length - 1) with
        | some ma =>
          obtain ⟨m, a2⟩ := ma
          simp [htr, ih]
        | none => simp [htr]

/-! ### Claim theorem: C10 -/

/-- C10: `getUpdatableNodeH` returns an aliasing reference into the very
document it was given, not into a copy: whenever it resolves a path of the
document rooted at `r` to the pair (parent address `pa`, final key `k`)
holding a scalar leaf, performing the assignment `parent[k] = v` through
that pair (`writeField`) makes the original document — re-resolved from
the same root `r` along the same path — hold exactly `v` at that leaf.
A caller who wants the original document preserved must therefore
deep-copy it before resolving. -/
theorem claimC10_resolver_aliases (h : Heap) (r : Addr) (p : String) (pa : Addr)
    (k : String) (w v : HVal)
    (hres : getUpdatableNodeH h (HVal.href r) p = some (pa, k))
    (hcur : lookupObjField h pa k = some w)
    (hw : isScalarH w = true) (hv : isScalarH v = true) :
    getUpdatableNodeH (writeField h pa k v) (HVal.href r) p = some (pa, k)
    ∧ lookupObjField (writeField h pa k v) pa k = some v := by
  obtain ⟨fs0, hobj, hfield⟩ : ∃ fs0, lookupObj h pa = some fs0 ∧ lookupFieldH fs0 k = some w := by
    simp only [lookupObjField] at hcur
    cases ho : lookupObj h pa with
    | none => rw [ho] at hcur; simp at hcur
    | some fs0 => rw [ho] at hcur; exact ⟨fs0, rfl, hcur⟩
  constructor
  · simp only [getUpdatableNodeH] at hres ⊢
    rw [resolveSegsAuxH_write_stable hobj hfield hw hv]
    exact hres
  · simp [lookupObjField, lookupObj_write, hobj, lookupFieldH_setFieldH, hfield]

/-- Witness for C10 on a concrete three-object document heap laying out
`{kubernetes: {options: {flannel:false, traefik:true}, suppressSudo:false}}`:
resolving `kubernetes-options-flannel`, writing `true` through the
returned (parent, key) pair, and observing the write from the original
root. -/
theorem claimC10_resolver_aliases_witness :
    getUpdatableNodeH
      (writeField
        { objs := [(2, [("kubernetes", HVal.href 1)]),
                   (1, [("options", HVal.href 0), ("suppressSudo", HVal.hbool false)]),
                   (0, [("flannel", HVal.hbool false), ("traefik", HVal.hbool true)])],
          next := 3 }
        0 ("flannel") (HVal.hbool true))
      (HVal.href 2) ("kubernetes-options-flannel") = some (0, "flannel")
    ∧ lookupObjField
        (writeField
          { objs := [(2, [("kubernetes", HVal.href 1)]),
                     (1, [("options", HVal.href 0), ("suppressSudo", HVal.hbool false)]),
                     (0, [("flannel", HVal.hbool false), ("traefik", HVal.hbool true)])],
            next := 3 }
          0 ("flannel") (HVal.hbool true))
        0 ("flannel") = some (HVal.hbool true) :=
  claimC10_resolver_aliases
    { objs := [(2, [("kubernetes", HVal.href 1)]),
               (1, [("options", HVal.href 0), ("suppressSudo", HVal.hbool false)]),
               (0, [("flannel", HVal.hbool false), ("traefik", HVal.hbool true)])],
      next := 3 }
    2 ("kubernetes-options-flannel") 0 ("flannel") (HVal.hbool false) (HVal.hbool true)
    rfl rfl rfl rfl

/-! ### Heap region and frame lemmas -/

theorem lookupAddr_mem {l : List (Addr × HObj)} {a : Addr} {fs : HObj} :
    lookupAddr l a = some fs → (a, fs) ∈ l := by
  induction l with
  | nil => intro h; simp [lookupAddr] at h
  | cons q rest ih =>
    obtain ⟨qa, qfs⟩ := q
    intro h
    by_cases hq : qa = a
    · simp [lookupAddr, hq] at h
      subst hq
      subst h
      exact List.mem_cons_self _ _
    · simp [lookupAddr, hq] at h
      exact List.mem_cons_of_mem _ (ih h)

theorem lookupFieldH_mem {fs : HObj} {key : String} {v : HVal} :
    lookupFieldH fs key = some v → (key, v) ∈ fs := by
  induction fs with
  | nil => intro h; simp [lookupFieldH] at h
  | cons p rest ih =>
    obtain ⟨a, b⟩ := p
    intro h
    by_cases hk : a = key
    · simp [lookupFieldH, hk] at h
      subst hk
      subst h
      exact List.mem_cons_self _ _
    · simp [lookupFieldH, hk] at h
      exact List.mem_cons_of_mem _ (ih h)

theorem lookupAddr_append_ge :
    ∀ (newPart old : List (Addr × HObj)) (n : Nat) (a : Addr),
      (∀ q ∈ newPart, n ≤ q.1) → a < n →
      lookupAddr (newPart ++ old) a = lookupAddr old a := by
  intro newPart
  induction newPart with
  | nil => intro old n a _ _; rfl
  | cons q rest ih =>
    intro old n a hge ha
    obtain ⟨qa, qfs⟩ := q
    have hq : n ≤ qa := hge (qa, qfs) (List.mem_cons_self _ _)
    have hqa : qa ≠ a := Nat.ne_of_gt (lt_of_lt_of_le ha hq)
    simp only [List.cons_append, lookupAddr, hqa, if_false]
    exact ih old n a (fun p hpm => hge p (List.mem_cons_of_mem _ hpm)) ha

theorem mem_setFieldH {fs : HObj} {k : String} {v : HVal} {f : String × HVal}
    (hf : f ∈ setFieldH fs k v) : f ∈ fs ∨ f.2 = v := by
  simp only [setFieldH, List.mem_map] at hf
  obtain ⟨p, hp, hfp⟩ := hf
  by_cases hpk : p.1 = k
  · rw [if_pos hpk] at hfp
    right
    rw [← hfp]
  · rw [if_neg hpk] at hfp
    left
    rw [← hfp]
    exact hp

theorem writeField_closedAbove {h : Heap} {n : Nat} {pa : Addr} {k : String} {v : HVal}
    (hca : closedAbove h n) (hv : isScalarH v = true) :
    closedAbove (writeField h pa k v) n := by
  intro a fs2 hna hlook f hf
  rw [lookupObj_write] at hlook
  by_cases hap : a = pa
  · rw [if_pos hap] at hlook
    cases ho : lookupObj h pa with
    | none => rw [ho] at hlook; simp at hlook
    | some fs1 =>
      rw [ho] at hlook
      simp only [Option.map_some', Option.some.injEq] at hlook
      subst hlook
      cases mem_setFieldH hf with
      | inl hmem => exact hca a fs1 hna (hap ▸ ho) f hmem
      | inr hval =>
        intro b hb
        rw [hval] at hb
        subst hb
        simp [isScalarH] at hv
  · rw [if_neg hap] at hlook
    exact hca a fs2 hna hlook f hf

theorem writeField_agreeBelow {h : Heap} {n : Nat} {pa : Addr} {k : String} {v : HVal}
    (hpa : n ≤ pa) : agreeBelow h (writeField h pa k v) n := by
  intro a ha
  have hne : ¬(a = pa) := Nat.ne_of_lt (lt_of_lt_of_le ha hpa)
  rw [lookupObj_write, if_neg hne]

theorem tryKeyRunsH_sound {fields : HObj} {segs : List String} :
    ∀ {n m : Nat} {a2 : Addr}, tryKeyRunsH fields segs n = some (m, a2) →
      lookupFieldH fields (joinDash (List.take m segs)) = some (HVal.href a2) := by
  intro n
  induction n with
  | zero => intro m a2 h; simp [tryKeyRunsH] at h
  | succ k ih =>
    intro m a2 h
    unfold tryKeyRunsH at h
    cases hl : lookupFieldH fields (joinDash (List.take (Nat.succ k) segs)) with
    | none => rw [hl] at h; exact ih h
    | some v =>
      rw [hl] at h
      cases v with
      | href b =>
        simp at h
        obtain ⟨h1, h2⟩ := h
        subst h1; subst h2
        exact hl
      | hstr s => exact ih h
      | hnum n2 => exact ih h
      | hbool b => exact ih h

theorem resolveSegsAuxH_region {h : Heap} {n : Nat} (hca : closedAbove h n) :
    ∀ (fuel : Nat) (a : Addr) (segs : List String) (pa : Addr) (k : String),
      n ≤ a → resolveSegsAuxH h fuel a segs = some (pa, k) → n ≤ pa := by
  intro fuel
  induction fuel with
  | zero => intro a segs pa k hna hres; simp [resolveSegsAuxH] at hres
  | succ fu ih =>
    intro a segs pa k hna hres
    unfold resolveSegsAuxH at hres
    cases hobj : lookupObj h a with
    | none => rw [hobj] at hres; simp at hres
    | some fields =>
      rw [hobj] at hres
      simp only at hres
      cases htr : tryKeyRunsH fields segs (segs.length - 1) with
      | some ma =>
        obtain ⟨m, a2⟩ := ma
        rw [htr] at hres
        simp only at hres
        have hfield := lookupFieldH_mem (tryKeyRunsH_sound htr)
        have hge := hca a fields hna hobj _ hfield a2 rfl
        exact ih a2 (List.drop m segs) pa k hge hres
      | none =>
        rw [htr] at hres
        simp only at hres
        cases hl : lookupFieldH fields (joinDash segs) with
        | none => rw [hl] at hres; simp at hres
        | some u =>
          rw [hl] at hres
          simp only [Option.some.injEq, Prod.mk.injEq] at hres
          obtain ⟨h1, h2⟩ := hres
          subst h1
          exact hna

theorem getUpdatableNodeH_region {h : Heap} {n : Nat} {root : HVal} {ps : String}
    {pa : Addr} {k : String} (hca : closedAbove h n) (hroot : hvalGE root n)
    (hres : getUpdatableNodeH h root ps = some (pa, k)) : n ≤ pa := by
  cases root with
  | href r =>
    exact resolveSegsAuxH_region hca _ r (splitDash ps) pa k (hroot r rfl) hres
  | hstr s => simp [getUpdatableNodeH] at hres
  | hnum n2 => simp [getUpdatableNodeH] at hres
  | hbool b => simp [getUpdatableNodeH] at hres

theorem coerceValueH_scalar {ps raw : String} {cur v : HVal}
    (h : coerceValueH ps raw cur = Except.ok v) : isScalarH v = true := by
  cases cur with
  | href a => simp [coerceValueH] at h
  | hstr s =>
    simp only [coerceValueH, Except.ok.injEq] at h
    subst h
    rfl
  | hbool b =>
    simp only [coerceValueH] at h
    by_cases ht : raw = "true"
    · rw [if_pos ht] at h
      simp at h
      subst h
      rfl
    · rw [if_neg ht] at h
      by_cases hf : raw = "false"
      · rw [if_pos hf] at h
        simp at h
        subst h
        rfl
      · rw [if_neg hf] at h
        cases hp : parseJsonScalar raw with
        | error e => rw [hp] at h; simp at h
        | ok j =>
          rw [hp] at h
          cases j with
          | jnum n2 => simp at h
          | jbool b2 => simp at h
          | jstr s2 => simp at h
          | jnull => simp at h
  | hnum n2 =>
    simp only [coerceValueH] at h
    cases hp : parseJsonScalar raw with
    | error e => rw [hp] at h; simp at h
    | ok j =>
      rw [hp] at h
      cases j with
      | jnum n3 =>
        simp at h
        subst h
        rfl
      | jbool b2 => simp at h
      | jstr s2 => simp at h
      | jnull => simp at h

theorem updateStepH_setNow_region {h : Heap} {root : HVal} {arg : String} {n : Nat}
    {pa : Addr} {k : String} {v : HVal}
    (hca : closedAbove h n) (hroot : hvalGE root n)
    (hstep : updateStepH h root arg = StepResultH.setNow pa k v) :
    n ≤ pa ∧ isScalarH v = true := by
  unfold updateStepH at hstep
  by_cases hlo : isLongOption arg
  · rw [if_pos hlo] at hstep
    cases hsp : splitFirstEq (optionBody arg) with
    | some pr =>
      obtain ⟨ps, raw⟩ := pr
      rw [hsp] at hstep
      simp only at hstep
      cases hgu : getUpdatableNodeH h root ps with
      | none => rw [hgu] at hstep; simp at hstep
      | some pak =>
        obtain ⟨pa', k'⟩ := pak
        rw [hgu] at hstep
        simp only at hstep
        cases hcur : lookupObjField h pa' k' with
        | none => rw [hcur] at hstep; simp at hstep
        | some cur =>
          rw [hcur] at hstep
          simp only at hstep
          cases hco : coerceValueH ps raw cur with
          | ok v2 =>
            rw [hco] at hstep
            simp only [StepResultH.setNow.injEq] at hstep
            obtain ⟨h1, h2, h3⟩ := hstep
            subst h1; subst h3
            exact ⟨getUpdatableNodeH_region hca hroot hgu, coerceValueH_scalar hco⟩
          | error e => rw [hco] at hstep; simp at hstep
    | none =>
      rw [hsp] at hstep
      simp only at hstep
      cases hgu : getUpdatableNodeH h root (optionBody arg) with
      | none => rw [hgu] at hstep; simp at hstep
      | some pak =>
        obtain ⟨pa', k'⟩ := pak
        rw [hgu] at hstep
        simp only at hstep
        cases hcur : lookupObjField h pa' k' with
        | none => rw [hcur] at hstep; simp at hstep
        | some cur =>
          rw [hcur] at hstep
          cases cur with
          | hbool b =>
            simp only [StepResultH.setNow.injEq] at hstep
            obtain ⟨h1, h2, h3⟩ := hstep
            subst h1; subst h3
            exact ⟨getUpdatableNodeH_region hca hroot hgu, rfl⟩
          | hstr s => simp at hstep
          | hnum n2 => simp at hstep
          | href a2 => simp at hstep
  · rw [if_neg hlo] at hstep
    simp at hstep

theorem updateStepH_wantNext_region {h : Heap} {root : HVal} {arg : String} {n : Nat}
    {pa : Addr} {k : String} {cur : HVal}
    (hca : closedAbove h n) (hroot : hvalGE root n)
    (hstep : updateStepH h root arg = StepResultH.wantNext pa k cur) :
    n ≤ pa := by
  unfold updateStepH at hstep
  by_cases hlo : isLongOption arg
  · rw [if_pos hlo] at hstep
    cases hsp : splitFirstEq (optionBody arg) with
    | some pr =>
      obtain ⟨ps, raw⟩ := pr
      rw [hsp] at hstep
      simp only at hstep
      cases hgu : getUpdatableNodeH h root ps with
      | none => rw [hgu] at hstep; simp at hstep
      | some pak =>
        obtain ⟨pa', k'⟩ := pak
        rw [hgu] at hstep
        simp only at hstep
        cases hcur : lookupObjField h pa' k' with
        | none => rw [hcur] at hstep; simp at hstep
        | some cur2 =>
          rw [hcur] at hstep
          simp only at hstep
          cases hco : coerceValueH ps raw cur2 with
          | ok v2 => rw [hco] at hstep; simp at hstep
          | error e => rw [hco] at hstep; simp at hstep
    | none =>
      rw [hsp] at hstep
      simp only at hstep
      cases hgu : getUpdatableNodeH h root (optionBody arg) with
      | none => rw [hgu] at hstep; simp at hstep
      | some pak =>
        obtain ⟨pa', k'⟩ := pak
        rw [hgu] at hstep
        simp only at hstep
        cases hcur : lookupObjField h pa' k' with
        | none => rw [hcur] at hstep; simp at hstep
        | some cur2 =>
          rw [hcur] at hstep
          cases cur2 with
          | hbool b => simp at hstep
          | hstr s =>
            simp only [StepResultH.wantNext.injEq] at hstep
            obtain ⟨h1, h2, h3⟩ := hstep
            subst h1
            exact getUpdatableNodeH_region hca hroot hgu
          | hnum n2 =>
            simp only [StepResultH.wantNext.injEq] at hstep
            obtain ⟨h1, h2, h3⟩ := hstep
            subst h1
            exact getUpdatableNodeH_region hca hroot hgu
          | href a2 =>
            simp only [StepResultH.wantNext.injEq] at hstep
            obtain ⟨h1, h2, h3⟩ := hstep
            subst h1
            exact getUpdatableNodeH_region hca hroot hgu
  · rw [if_neg hlo] at hstep
    simp at hstep

theorem updateLoopH_cons (h : Heap) (root : HVal) (arg : String) (rest : List String) :
    updateLoopH h root (arg :: rest) =
      match updateStepH h root arg with
      | StepResultH.err e => (h, Except.error e)
      | StepResultH.setNow pa k v => updateLoopH (writeField h pa k v) root rest
      | StepResultH.wantNext pa k cur =>
        match rest with
        | [] => (h, Except.error ("No value provided for option " ++ arg))
        | raw :: rest2 =>
          match coerceValueH (optionBody arg) raw cur with
          | Except.ok v => updateLoopH (writeField h pa k v) root rest2
          | Except.error e => (h, Except.error e) := by
  simp only [updateLoopH]

theorem updateLoopH_frame :
    ∀ (nargs : Nat) (argv : List String), argv.length ≤ nargs →
      ∀ (h : Heap) (root : HVal) (n : Nat), closedAbove h n → hvalGE root n →
        agreeBelow h (updateLoopH h root argv).1 n := by
  intro nargs
  induction nargs with
  | zero =>
    intro argv hlen h root n hca hroot
    have hnil : argv = [] := List.eq_nil_of_length_eq_zero (Nat.le_zero.mp hlen)
    subst hnil
    intro a ha
    rfl
  | succ m ih =>
    intro argv hlen h root n hca hroot
    cases argv with
    | nil => intro a ha; rfl
    | cons arg rest =>
      rw [updateLoopH_cons]
      cases hstep : updateStepH h root arg with
      | err e => intro a ha; rfl
      | setNow pa k v =>
        obtain ⟨hpa, hscal⟩ := updateStepH_setNow_region hca hroot hstep
        have hca2 := @writeField_closedAbove h n pa k v hca hscal
        have hrec := ih rest (by simp at hlen; omega) (writeField h pa k v) root n hca2 hroot
        intro a ha
        exact (hrec a ha).trans (@writeField_agreeBelow h n pa k v hpa a ha)
      | wantNext pa k cur =>
        have hpa := updateStepH_wantNext_region hca hroot hstep
        cases rest with
        | nil => intro a ha; rfl
        | cons raw rest2 =>
          cases hco : coerceValueH (optionBody arg) raw cur with
          | error e =>
            intro a ha
            simp only [hco]
          | ok v =>
            have hscal := coerceValueH_scalar hco
            have hca2 := @writeField_closedAbove h n pa k v hca hscal
            have hrec := ih rest2 (by simp at hlen; omega) (writeField h pa k v) root n hca2 hroot
            intro a ha
            have hgoal := (hrec a ha).trans (@writeField_agreeBelow h n pa k v hpa a ha)
            simp only [hco]
            exact hgoal

/-! ### The deep-copy specification -/

theorem storeVal_node_eq (fs : List (String × SettingsValue)) (h : Heap) :
    storeVal (SettingsValue.node fs) h
      = ({ objs := ((storeFields fs h).1.next, (storeFields fs h).2) :: (storeFields fs h).1.objs,
           next := (storeFields fs h).1.next + 1 }, HVal.href (storeFields fs h).1.next) := by
  simp only [storeVal]

theorem storeFields_cons_eq (p : String × SettingsValue) (rest : List (String × SettingsValue))
    (h : Heap) :
    storeFields (p :: rest) h
      = ((storeFields rest (storeVal p.2 h).1).1,
         (p.1, (storeVal p.2 h).2) :: (storeFields rest (storeVal p.2 h).1).2) := by
  simp only [storeFields]

theorem hvalGE_mono {v : HVal} {m n : Nat} (hmn : n ≤ m) (hv : hvalGE v m) : hvalGE v n :=
  fun b hb => le_trans hmn (hv b hb)

theorem store_spec_strong : ∀ (n : Nat),
    (∀ (t : SettingsValue) (h : Heap), sizeOf t ≤ n → StoreValSpec t h)
    ∧ (∀ (fs : List (String × SettingsValue)) (h : Heap), sizeOf fs ≤ n → StoreFieldsSpec fs h) := by
  intro n
  induction n using Nat.strong_induction_on with
  | _ n ih =>
    constructor
    · intro t h hsz
      cases t with
      | str s =>
        refine ⟨le_refl _, ⟨[], by simp [storeVal], by simp⟩, ?_, ?_⟩
        · intro b hb
          simp [storeVal] at hb
        · intro h2 fuel hagree hdep
          simp [storeVal, readVal]
      | num n2 =>
        refine ⟨le_refl _, ⟨[], by simp [storeVal], by simp⟩, ?_, ?_⟩
        · intro b hb
          simp [storeVal] at hb
        · intro h2 fuel hagree hdep
          simp [storeVal, readVal]
      | bool b =>
        refine ⟨le_refl _, ⟨[], by simp [storeVal], by simp⟩, ?_, ?_⟩
        · intro b2 hb
          simp [storeVal] at hb
        · intro h2 fuel hagree hdep
          simp [storeVal, readVal]
      | node fs =>
        have hns : sizeOf (SettingsValue.node fs) = 1 + sizeOf fs := by simp
        have hlt : sizeOf fs < n := by omega
        have specF := (ih (sizeOf fs) hlt).2 fs h (le_refl _)
        unfold StoreFieldsSpec at specF
        obtain ⟨hfnext, ⟨npF, hobjsF, hnpF⟩, hitemsF, hreadF⟩ := specF
        unfold StoreValSpec
        rw [storeVal_node_eq]
        refine ⟨?_, ⟨((storeFields fs h).1.next, (storeFields fs h).2) :: npF, ?_, ?_⟩, ?_, ?_⟩
        · exact Nat.le_succ_of_le hfnext
        · simp only [List.cons_append]
          rw [hobjsF]
        · intro q hq
          cases List.mem_cons.mp hq with
          | inl hq1 =>
            subst hq1
            refine ⟨hfnext, Nat.lt_succ_self _, ?_⟩
            intro f hf
            exact hitemsF f hf
          | inr hq2 =>
            obtain ⟨hq3, hq4, hq5⟩ := hnpF q hq2
            exact ⟨hq3, Nat.lt_succ_of_lt hq4, hq5⟩
        · intro b hb
          simp only [HVal.href.injEq] at hb
          subst hb
          exact hfnext
        · intro h2 fuel hagree hdep
          have hdv : depthVal (SettingsValue.node fs) = depthFields fs + 1 := by
            simp [depthVal]
          rw [hdv] at hdep
          cases fuel with
          | zero => omega
          | succ fu =>
            have hdf : depthFields fs ≤ fu := by omega
            show readVal (Nat.succ fu) h2 (HVal.href (storeFields fs h).1.next)
              = some (SettingsValue.node fs)
            have hlook : lookupObj h2 (storeFields fs h).1.next = some (storeFields fs h).2 := by
              have hag := hagree (storeFields fs h).1.next (Nat.lt_succ_self _)
              rw [hag]
              simp [lookupObj, lookupAddr]
            have hag2 : agreeBelow (storeFields fs h).1 h2 (storeFields fs h).1.next := by
              intro a ha
              have h1 := hagree a (Nat.lt_succ_of_lt ha)
              rw [h1]
              simp only [lookupObj, lookupAddr]
              rw [if_neg (Nat.ne_of_gt ha)]
            have hrf := hreadF h2 fu hag2 hdf
            simp only [readVal, hlook, hrf, Option.map_some']
    · intro fs h hsz
      cases fs with
      | nil =>
        refine ⟨le_refl _, ⟨[], by simp [storeFields], by simp⟩, by simp [storeFields], ?_⟩
        intro h2 fuel hagree hdep
        simp [storeFields, readFields]
      | cons p rest =>
        obtain ⟨key, tv⟩ := p
        have hcs : sizeOf ((key, tv) :: rest) = 1 + (1 + sizeOf key + sizeOf tv) + sizeOf rest := by
          simp
        have hlt1 : sizeOf tv < n := by omega
        have hlt2 : sizeOf rest < n := by omega
        have specV := (ih (sizeOf tv) hlt1).1 tv h (le_refl _)
        unfold StoreValSpec at specV
        obtain ⟨hAnext, ⟨npA, hobjsA, hnpA⟩, hgeA, hreadA⟩ := specV
        have specR := (ih (sizeOf rest) hlt2).2 rest (storeVal tv h).1 (le_refl _)
        unfold StoreFieldsSpec at specR
        obtain ⟨hBnext, ⟨npB, hobjsB, hnpB⟩, hitemsB, hreadB⟩ := specR
        unfold StoreFieldsSpec
        rw [storeFields_cons_eq]
        refine ⟨?_, ⟨npB ++ npA, ?_, ?_⟩, ?_, ?_⟩
        · exact le_trans hAnext hBnext
        · rw [List.append_assoc, ← hobjsA, ← hobjsB]
        · intro q hq
          cases List.mem_append.mp hq with
          | inl hqB =>
            obtain ⟨hq1, hq2, hq3⟩ := hnpB q hqB
            refine ⟨le_trans hAnext hq1, hq2, ?_⟩
            intro f hf
            exact hvalGE_mono hAnext (hq3 f hf)
          | inr hqA =>
            obtain ⟨hq1, hq2, hq3⟩ := hnpA q hqA
            exact ⟨hq1, lt_of_lt_of_le hq2 hBnext, hq3⟩
        · intro f hf
          cases List.mem_cons.mp hf with
          | inl hf1 =>
            subst hf1
            exact hgeA
          | inr hf2 =>
            exact hvalGE_mono hAnext (hitemsB f hf2)
        · intro h2 fuel hagree hdep
          have hdc : depthFields ((key, tv) :: rest)
              = max (depthVal tv) (depthFields rest) := by
            simp [depthFields]
          rw [hdc] at hdep
          have hdtv : depthVal tv ≤ fuel := le_trans (le_max_left _ _) hdep
          have hdre : depthFields rest ≤ fuel := le_trans (le_max_right _ _) hdep
          have hagA : agreeBelow (storeVal tv h).1 h2 (storeVal tv h).1.next := by
            intro a ha
            have h1 := hagree a (lt_of_lt_of_le ha hBnext)
            rw [h1]
            show lookupAddr (storeFields rest (storeVal tv h).1).1.objs a
              = lookupAddr (storeVal tv h).1.objs a
            rw [hobjsB]
            exact lookupAddr_append_ge npB (storeVal tv h).1.objs (storeVal tv h).1.next a
              (fun q hq => (hnpB q hq).1) ha
          have hrv := hreadA h2 fuel hagA hdtv
          have hrf := hreadB h2 fuel hagree hdre
          show readFields fuel h2 ((key, (storeVal tv h).2)
              :: (storeFields rest (storeVal tv h).1).2) = some ((key, tv) :: rest)
          simp only [readFields, hrv, hrf]

/-- The deep-copy specification, packaged per tree. -/
theorem storeVal_spec (t : SettingsValue) (h : Heap) : StoreValSpec t h :=
  (store_spec_strong (sizeOf t)).1 t h (le_refl _)

/-! ### Claim theorem: C3 -/

/-- C3: the engine never mutates the caller's document.  For every settings
document laid out in the heap and every argv list, after
`updateFromCommandLineH` finishes — returning a patched document or an
error — the caller's object graph, read from the original root, is still
exactly the original document: the engine works on a deep, independent
copy (fresh addresses), so neither success, nor partial progress before a
failure, ever touches an object of the caller's document. -/
theorem claimC3_no_mutation (doc : SettingsValue) (argv : List String) :
    readVal (depthVal doc)
      (updateFromCommandLineH (depthVal doc) (storeVal doc emptyHeap).1
        (storeVal doc emptyHeap).2 argv).1
      (storeVal doc emptyHeap).2 = some doc := by
  have spec0 := storeVal_spec doc emptyHeap
  unfold StoreValSpec at spec0
  obtain ⟨hnext0, ⟨np0, hobjs0, hnp0⟩, hge0, hread0⟩ := spec0
  have hread_self : readVal (depthVal doc) (storeVal doc emptyHeap).1
      (storeVal doc emptyHeap).2 = some doc :=
    hread0 (storeVal doc emptyHeap).1 (depthVal doc) (fun a ha => rfl) (le_refl _)
  unfold updateFromCommandLineH
  rw [hread_self]
  show readVal (depthVal doc)
      (updateLoopH (storeVal doc (storeVal doc emptyHeap).1).1
        (storeVal doc (storeVal doc emptyHeap).1).2 argv).1
      (storeVal doc emptyHeap).2 = some doc
  have spec1 := storeVal_spec doc (storeVal doc emptyHeap).1
  unfold StoreValSpec at spec1
  obtain ⟨hnext1, ⟨np1, hobjs1, hnp1⟩, hge1, hread1⟩ := spec1
  have hca : closedAbove (storeVal doc (storeVal doc emptyHeap).1).1
      (storeVal doc emptyHeap).1.next := by
    intro a fs2 hna hlook f hf
    have hmem := lookupAddr_mem hlook
    rw [hobjs1] at hmem
    cases List.mem_append.mp hmem with
    | inl hin => exact (hnp1 (a, fs2) hin).2.2 f hf
    | inr hin =>
      rw [hobjs0] at hin
      have hin2 : (a, fs2) ∈ np0 := by simpa [emptyHeap] using hin
      have hlt := (hnp0 (a, fs2) hin2).2.1
      exact absurd hlt (Nat.not_lt.mpr hna)
  have hframe := updateLoopH_frame argv.length argv (le_refl _)
      (storeVal doc (storeVal doc emptyHeap).1).1
      (storeVal doc (storeVal doc emptyHeap).1).2
      (storeVal doc emptyHeap).1.next hca hge1
  apply hread0
  · intro a ha
    have h1 := hframe a ha
    rw [h1]
    show lookupAddr (storeVal doc (storeVal doc emptyHeap).1).1.objs a
      = lookupAddr (storeVal doc emptyHeap).1.objs a
    rw [hobjs1]
    exact lookupAddr_append_ge np1 (storeVal doc emptyHeap).1.objs
      (storeVal doc emptyHeap).1.next a (fun q hq => (hnp1 q hq).1) ha
  · exact le_refl _
